import Mathlib

/-!
Shallow embedding of `bwameth.py` (bwa-meth 0.2.7): genome recoding
(`convert_fasta`), read recoding (`convert_reads` and
`convert_and_write_read`), header rewriting (`handle_header`), the header
loop of `as_bam`, and the alignment decoding of `handle_reads` with the
`Bam` record model.

Python strings are modelled as `List Char`; SAM integer fields (all
nonnegative where parsed) as `Nat`/`Int`.  Fallible Python code (uncaught
exceptions, `sys.exit`) is modelled with `Except`/`Option`.
-/

/-- Shorthand turning a string literal into the `List Char` representation
used throughout. -/
def chars (s : String) : List Char := s.toList

/-- One raw text line of an input stream (newline included, as produced by
Python file iteration). -/
abbrev Line := List Char

instance {e a : Type} [DecidableEq e] [DecidableEq a] : DecidableEq (Except e a) := fun x y =>
  match x, y with
  | Except.error u, Except.error v =>
    if h : u = v then isTrue (by rw [h]) else isFalse (fun hh => by cases hh; exact h rfl)
  | Except.ok u, Except.ok v =>
    if h : u = v then isTrue (by rw [h]) else isFalse (fun hh => by cases hh; exact h rfl)
  | Except.error _, Except.ok _ => isFalse (fun hh => by cases hh)
  | Except.ok _, Except.error _ => isFalse (fun hh => by cases hh)

/-- Whitespace characters stripped by Python's argument-less `str.rstrip`. -/
def isPySpace (c : Char) : Bool :=
  c = ' ' || c = '\t' || c = '\n' || c = '\r' || c = Char.ofNat 11 || c = Char.ofNat 12

/-- Python `s.rstrip()`: remove trailing whitespace. -/
def pyRstrip (s : List Char) : List Char :=
  (s.reverse.dropWhile isPySpace).reverse

/-- Python `s.rstrip('\n')`. -/
def rstripNl (s : List Char) : List Char :=
  (s.reverse.dropWhile (fun c => c = '\n')).reverse

/-- Python `s.rstrip("\r\n")`. -/
def rstripCrNl (s : List Char) : List Char :=
  (s.reverse.dropWhile (fun c => c = '\r' || c = '\n')).reverse

/-- Python `s.split(sep)` for a one-character separator (keeps empty fields,
always returns at least one field). -/
def splitOnChar (sep : Char) : List Char → List (List Char)
  | [] => [[]]
  | c :: rest =>
    match splitOnChar sep rest with
    | [] => if c = sep then [[], []] else [[c]]
    | h :: t => if c = sep then [] :: h :: t else (c :: h) :: t

/-- Python `s.split(sep, 1)`: split at the first occurrence only. -/
def splitFirst (sep : Char) (s : List Char) : List (List Char) :=
  let pre := s.takeWhile (fun c => c ≠ sep)
  if pre.length = s.length then [s] else [pre, s.drop (pre.length + 1)]

/-- Python `s.split(' ')[0]`: the token before the first space. -/
def firstField (s : List Char) : List Char := s.takeWhile (fun c => c ≠ ' ')

/-- Characterwise complement, `comp` from the source:
`s.translate(maketrans('ATCG', 'TAGC'))`. -/
def compChar (c : Char) : Char :=
  if c = 'A' then 'T' else if c = 'T' then 'A'
  else if c = 'C' then 'G' else if c = 'G' then 'C' else c

/-- Sequence complement used by the decoder for minus-strand reads. -/
def comp (s : List Char) : List Char := s.map compChar

/-- Python `str.replace` for the one-character patterns used by the
recoders. -/
def pyReplace (a b : Char) (s : List Char) : List Char :=
  s.map fun c => if c = a then b else c

/-- Python `str.upper` (ASCII data throughout). -/
def pyUpper (s : List Char) : List Char := s.map Char.toUpper

/-- The two substitution pairs of `['CT', 'GA'][read_i]`. -/
def subPairs : List (Char × Char) := [('C', 'T'), ('G', 'A')]

/-- The pieces of one recoded FASTQ record emitted by
`convert_and_write_read`: header line (newline included), recoded sequence
and quality line. -/
structure RecodedRead where
  name_line : List Char
  seq : List Char
  qual : List Char
deriving DecidableEq

/-- The mate-suffix stripping of `convert_and_write_read`: drop a trailing
`_R1`/`_R2` or `/1`/`/2` from the base name. -/
def stripMateTag (name : List Char) : List Char :=
  if (chars "_R1").isSuffixOf name || (chars "_R2").isSuffixOf name then
    name.take (name.length - 3)
  else if (chars "/1").isSuffixOf name || (chars "/2").isSuffixOf name then
    name.take (name.length - 2)
  else name

/-- Body of `convert_and_write_read` up to the final `out.write`.  The
error value models `sys.exit(1)` on a header that does not start with `@`
(together with the `IndexError` on an empty header) and the `IndexError`
of `['CT','GA'][read_i]` for `read_i` outside `{0, 1}`. -/
def convert_read (name seq qual : List Char) (read_i : Nat) : Except Unit RecodedRead :=
  let name := firstField (rstripCrNl name)
  match name.head? with
  | none => Except.error ()
  | some c0 =>
    if c0 = '@' then
      let name := stripMateTag name
      let seq := rstripNl (pyUpper seq)
      match subPairs.get? read_i with
      | some (a, b) =>
        Except.ok
          { name_line := name ++ [' '] ++ chars "YS:Z:" ++ seq ++ chars "\tYC:Z:" ++ [a, b] ++ ['\n']
            seq := pyReplace a b seq
            qual := qual }
      | none => Except.error ()
    else Except.error ()

/-- The string written by `convert_and_write_read`:
`"".join((name, seq, "\n+\n", qual))`. -/
def convert_and_write_read (name seq qual : List Char) (read_i : Nat) :
    Except Unit (List Char) :=
  (convert_read name seq qual read_i).map fun r =>
    r.name_line ++ r.seq ++ chars "\n+\n" ++ r.qual

/-- Property `Bam.original_seq`: the first auxiliary field starting with
`YS:Z:`, tag stripped; `none` models the raised `StopIteration`. -/
def original_seq (other : List (List Char)) : Option (List Char) :=
  (other.find? fun x => (chars "YS:Z:").isPrefixOf x).map (fun x => x.drop 5)

/-- The FASTQ comment of a recoded read's header line: the text after the
first space, trailing newline removed, split into its tab-separated
auxiliary fields.  The aligner copies this comment verbatim into the
alignment record's auxiliary fields (`bwa mem -C`), which is where
`Bam.original_seq` reads it back. -/
def comment_fields (name_line : List Char) : List (List Char) :=
  splitOnChar '\t' (rstripNl ((name_line.dropWhile (fun c => c ≠ ' ')).drop 1))

/-- Decimal digit run to `Nat`, Python `int("".join(n))`. -/
def digitsVal (ds : List Char) : Nat := ds.foldl (fun a c => a * 10 + (c.toNat - 48)) 0

/-- Maximal runs of characters agreeing on `Char.isDigit`, the groups of
`itertools.groupby(cigar, lambda c: c.isdigit())`. -/
def digitRuns : List Char → List (List Char)
  | [] => []
  | c :: rest =>
    match digitRuns rest with
    | [] => [[c]]
    | [] :: t => [c] :: [] :: t
    | (d :: g) :: t =>
      if c.isDigit = d.isDigit then (c :: d :: g) :: t else [c] :: (d :: g) :: t

/-- Pair up alternating digit/letter groups as `(int(n), op)`. -/
def pairRuns : List (List Char) → List (Nat × List Char)
  | a :: b :: t => (digitsVal a, b) :: pairRuns t
  | _ => []

/-- Generator `Bam.cigs` on a parseable CIGAR string: length/operation
pairs.  On `"*"` and on malformed strings the source generator raises;
every CIGAR of a mapped record has the alternating digits/letter shape
assumed here. -/
def cigs (cigar : List Char) : List (Nat × List Char) := pairRuns (digitRuns cigar)

/-- The loop shared by `left_shift` and `right_shift`: sum the `H`
operation lengths, stopping at the first `M`. -/
def hSum : List (Nat × List Char) → Nat
  | [] => 0
  | (n, op) :: rest => if op = ['M'] then 0 else (if op = ['H'] then n else 0) + hSum rest

/-- Method `Bam.left_shift`. -/
def left_shift (cigar : List Char) : Nat := hSum (cigs cigar)

/-- The nonnegative sum computed by `Bam.right_shift` before negation. -/
def right_shift_sum (cigar : List Char) : Nat := hSum (cigs cigar).reverse

/-- Method `Bam.right_shift`: `-right or None` (`none` when the sum is
zero, so that the Python slice runs to the end of the string). -/
def right_shift (cigar : List Char) : Option Int :=
  if right_shift_sum cigar = 0 then none else some (-(right_shift_sum cigar : Int))

/-- Python `s[l:stop]` for a nonnegative start index and an optional stop
index (negative stop counts from the end; `List.take` clamps exactly as
Python clamps out-of-range bounds). -/
def pySlice (s : List Char) (l : Nat) (stop : Option Int) : List Char :=
  match stop with
  | none => s.drop l
  | some st =>
    (s.take (if st < 0 then ((s.length : Int) + st).toNat else st.toNat)).drop l

/-- Scanner equivalent of `re.findall(r"\d+M", cigar)`: the accumulator
holds the current maximal digit run; a digit run immediately followed by
`M` contributes one match. -/
def mRuns : List Char → List Char → List Nat
  | [], _ => []
  | c :: rest, acc =>
    if c.isDigit then mRuns rest (acc ++ [c])
    else if c = 'M' && !acc.isEmpty then digitsVal acc :: mRuns rest []
    else mRuns rest []

/-- Method `Bam.longest_match`; `none` models the `ValueError` of `max`
on a CIGAR without any match run. -/
def longest_match (cigar : List Char) : Option Nat := (mRuns cigar []).max?

/-- Python `f & ~mask` on a nonnegative `int`: clear the bits of `mask`. -/
def andNot (f mask : Nat) : Nat := Nat.bitwise (fun a b => a && !b) f mask

/-- The in-memory alignment record (`class Bam`), after the `__init__`
parses: `flag`, `pos` and `tlen` are integers; `mapq` stays a decimal
string in the source until the chimera rule assigns `min(int(mapq), 1)`
and is modelled as its (nonnegative) numeric value throughout. -/
structure Bam where
  read : List Char
  flag : Nat
  chrom : List Char
  pos : Int
  mapq : Nat
  cigar : List Char
  chrom_mate : List Char
  pos_mate : List Char
  tlen : Int
  seq : List Char
  qual : List Char
  other : List (List Char)
deriving DecidableEq

/-- The chimera heuristic body of `handle_reads` (lines 441-444): on a
longest match run below 44% of the original length, set QC-fail (0x200),
clear properly-paired (0x2) and cap the mapping quality at 1.  The source
compares the integer against the Python float `len(orig_seq) * 0.44`; the
double nearest `0.44` is `0.44 + 1 / (25 * 2 ^ 54)`, so for every length
below `10 ^ 12` the product rounds to exactly `11 * len / 25` when that is
an integer and to a value strictly between its floor and its ceiling
otherwise, hence the integer comparison agrees with the exact rational
comparison used here. -/
def chimera_step (orig_seq : List Char) (aln : Bam) : Except Unit Bam :=
  match longest_match aln.cigar with
  | none => Except.error ()
  | some m =>
    if (m : ℚ) < (orig_seq.length : ℚ) * (44 / 100 : ℚ) then
      Except.ok { aln with flag := andNot (aln.flag ||| 0x200) 0x2, mapq := min aln.mapq 1 }
    else Except.ok aln

/-- The sequence restoration of `handle_reads` (lines 450-455): slice the
original sequence by the hard-clip offsets, on the reverse of the original
(followed by complementing) for a minus-strand record. -/
def restore_seq (orig_seq : List Char) (aln : Bam) : List Char :=
  if aln.flag &&& 0x10 = 0 then
    pySlice orig_seq (left_shift aln.cigar) (right_shift aln.cigar)
  else
    comp (pySlice orig_seq.reverse (left_shift aln.cigar) (right_shift aln.cigar))

/-- Line 419 of `handle_reads`: drop the consumed `YS:Z` auxiliary field. -/
def drop_ys (a : Bam) : Bam :=
  { a with other := a.other.filter fun x => !(chars "YS:Z").isPrefixOf x }

/-- Lines 423-424: strip a leftover strand tag from an unmapped record's
reference name. -/
def strip_unmapped_tag (a : Bam) : Bam :=
  if 1 < a.chrom.length ∧ (a.chrom.headD ' ' = 'f' ∨ a.chrom.headD ' ' = 'r') then
    { a with chrom := a.chrom.drop 1 }
  else a

/-- Lines 429-432: strip the strand tag from the reference name and record
it in a `YD:Z:` auxiliary tag. -/
def tag_yd (direction : Char) (chromRest : List Char) (a : Bam) : Bam :=
  { a with chrom := chromRest, other := a.other ++ [chars "YD:Z:" ++ [direction]] }

/-- Lines 434-435: mark the record QC-failed when the caller asked for
this strand to fail. -/
def flag_strand (set_as_failed : Option Char) (direction : Char) (a : Bam) : Bam :=
  if set_as_failed = some direction then { a with flag := a.flag ||| 0x200 } else a

/-- Lines 446-448: strip a strand tag from the mate reference name unless
it is the `*`/`=` sentinel. -/
def strip_mate_strand (md : Char) (mateRest : List Char) (a : Bam) : Bam :=
  if md ≠ '*' ∧ md ≠ '=' then { a with chrom_mate := mateRest } else a

/-- The per-record body of the loop in `handle_reads` (lines 415-455).
Errors model the `assert` failures (sequence/quality length mismatch,
strand tag outside `fr`), the missing `YS:Z:` field, `IndexError` on an
empty reference-name field, and the chimera rule's `ValueError` on a
CIGAR without match runs. -/
def processRecord (set_as_failed : Option Char) (do_not_penalize_chimeras : Bool)
    (aln : Bam) : Except Unit Bam :=
  match original_seq aln.other with
  | none => Except.error ()
  | some orig_seq =>
    if aln.seq.length ≠ aln.qual.length then Except.error ()
    else
      let aln := drop_ys aln
      if aln.flag &&& 0x4 ≠ 0 then
        Except.ok (strip_unmapped_tag { aln with seq := orig_seq })
      else
        match aln.chrom with
        | [] => Except.error ()
        | direction :: chromRest =>
          if direction = 'f' ∨ direction = 'r' then
            let a2 := flag_strand set_as_failed direction (tag_yd direction chromRest aln)
            match (if do_not_penalize_chimeras then Except.ok a2 else chimera_step orig_seq a2) with
            | Except.error e => Except.error e
            | Except.ok a3 =>
              match a3.chrom_mate with
              | [] => Except.error ()
              | md :: mateRest =>
                let a4 := strip_mate_strand md mateRest a3
                Except.ok { a4 with seq := restore_seq orig_seq a4 }
          else Except.error ()

/-- Group-level QC-fail propagation of `handle_reads` (lines 457-461). -/
def qc_propagate (alns : List Bam) : List Bam :=
  if alns.any fun a => (a.flag &&& 0x200) != 0 then
    alns.map fun a => { a with flag := andNot (a.flag ||| 0x200) 0x2 }
  else alns

/-- Function `handle_reads`: per-record decoding followed by group-level
QC-fail propagation. -/
def handle_reads (set_as_failed : Option Char) (do_not_penalize_chimeras : Bool)
    (alns : List Bam) : Except Unit (List Bam) :=
  (alns.mapM (processRecord set_as_failed do_not_penalize_chimeras)).map qc_propagate

/-- Specification-side left offset: sum of hard-clip operation lengths
before the first match operation. -/
def hBefore (ops : List (Nat × List Char)) : Nat :=
  (((ops.takeWhile fun p => p.2 ≠ ['M']).filter fun p => p.2 = ['H']).map Prod.fst).sum

/-- Specification-side right offset: sum of hard-clip operation lengths
after the last match operation. -/
def hAfter (ops : List (Nat × List Char)) : Nat := hBefore ops.reverse

/-- A 4-line FASTQ record as consumed by `convert_reads`. -/
abbrev Quad := Line × Line × Line × Line

/-- Grouping of `izip(*[lines] * 4)`: consecutive complete 4-line records,
an incomplete tail dropped. -/
def chunk4 : List Line → List Quad
  | a :: b :: c :: d :: rest => (a, b, c, d) :: chunk4 rest
  | _ => []

/-- The record stream selected by `convert_reads` for one source pair:
interleave detection on the first and fifth line of the first source, then
either the first source alone or the zip of both sources.  A `none` entry
is the `(None, None, None, None)` placeholder produced by `repeat` in
single-end mode. -/
def selectedRecs (fq1Lines : List Line) (fq2Lines : Option (List Line)) : List (Option Quad) :=
  let first_five := fq1Lines.take 5
  let q1 := (chunk4 fq1Lines).map some
  if firstField (first_five.headD []) = firstField (first_five.getLastD []) then q1
  else
    match fq2Lines with
    | some l2 => ((q1.zip ((chunk4 l2).map some)).map fun p => [p.1, p.2]).flatten
    | none => ((q1.zip (q1.map fun _ => (none : Option Quad))).map fun p => [p.1, p.2]).flatten

/-- The record loop of `convert_reads` over one pair's enumerated stream:
convert each record with `read_i % 2` as mate index, skip `None`
placeholders, and count records whose raw sequence line (newline included)
is shorter than 80 characters. -/
def runRecs : List (Nat × Option Quad) → Except Unit (List (List Char) × Nat)
  | [] => Except.ok ([], 0)
  | (_, none) :: rest => runRecs rest
  | (i, some (n, s, _, q)) :: rest =>
    match convert_and_write_read n s q (i % 2) with
    | Except.error e => Except.error e
    | Except.ok w =>
      match runRecs rest with
      | Except.error e => Except.error e
      | Except.ok (ws, c) => Except.ok (w :: ws, c + if s.length < 80 then 1 else 0)

/-- One iteration of the outer loop of `convert_reads` (one comma-separated
source pair); the error on an empty first source models the `IndexError`
of `first_five[0]`. -/
def processPair (fq1Lines : List Line) (fq2Lines : Option (List Line)) :
    Except Unit (List (List Char) × Nat) :=
  match fq1Lines with
  | [] => Except.error ()
  | _ :: _ => runRecs (selectedRecs fq1Lines fq2Lines).enum

/-- The outer loop of `convert_reads` over the zipped pair list: outputs
accumulate across pairs while `lt80` is re-initialised inside the loop, so
only the last pair's count survives the loop.  The second component is the
state of the `lt80` variable (`none` while still unbound). -/
def loopPairs : List (List Line × Option (List Line)) → Option Nat →
    Except Unit (List (List Char) × Option Nat)
  | [], lt80 => Except.ok ([], lt80)
  | p :: rest, _ =>
    match processPair p.1 p.2 with
    | Except.error e => Except.error e
    | Except.ok (o, c) =>
      match loopPairs rest (some c) with
      | Except.error e => Except.error e
      | Except.ok (os, c2) => Except.ok (o ++ os, c2)

/-- Function `convert_reads`: the emitted recoded stream together with
whether the short-read warning (`lt80 > 50` after the loop) fires; if the
pair list is empty the final test raises `NameError` on the unbound
`lt80`, modelled by the error value. -/
def convert_reads (pairs : List (List Line × Option (List Line))) :
    Except Unit (List (List Char) × Bool) :=
  match loopPairs pairs none with
  | Except.error e => Except.error e
  | Except.ok (_, none) => Except.error ()
  | Except.ok (os, some c) => Except.ok (os, decide (c > 50))

/-- Specification-side reading of the short-read counter: the count of
short records accumulated across the whole run, over all source pairs
together. -/
def spec_whole_run_short_count (pairs : List (List Line × Option (List Line))) :
    Except Unit Nat :=
  pairs.foldlM (fun acc p => (processPair p.1 p.2).map (fun r => acc + r.2)) 0

/-- Specification-side alternating consumption from a single source:
record number `j` of the list (counting from `k`) is converted with mate
index `(k + j) % 2`, with the same short-record count as the source loop. -/
def altConvert (k : Nat) : List Quad → Except Unit (List (List Char) × Nat)
  | [] => Except.ok ([], 0)
  | (n, s, _, q) :: rest =>
    match convert_and_write_read n s q (k % 2) with
    | Except.error e => Except.error e
    | Except.ok w =>
      match altConvert (k + 1) rest with
      | Except.error e => Except.error e
      | Except.ok (ws, c) => Except.ok (w :: ws, c + if s.length < 80 then 1 else 0)

/-- Python `"\t".join(toks)`. -/
def joinTabs (toks : List (List Char)) : List Char := List.intercalate ['\t'] toks

/-- The tail of `handle_header`: the `@PG` replacement test followed by the
final write.  The parameter `pg_line` stands for the synthesized `@PG`
line (it carries the version and `sys.argv`, runtime data). -/
def emitToks (pg_line : List Char) (toks : List (List Char)) : List Char :=
  (if (chars "@PG").isPrefixOf (toks.headD []) then joinTabs [pg_line] else joinTabs toks)
    ++ ['\n']

/-- Function `handle_header` on one header line: `@SQ` entries are
re-parsed (a fan-out other than exactly three tab-separated fields raises
`ValueError`, and a name field without a colon raises `IndexError`, both
modelled by the error value), reverse-tagged entries are dropped
(`Except.ok none`), surviving entries are re-emitted with the strand tag
stripped. -/
def handle_header (pg_line line : List Char) : Except Unit (Option (List Char)) :=
  let toks := splitOnChar '\t' (pyRstrip line)
  if (chars "@SQ").isPrefixOf (toks.headD []) then
    match toks with
    | [sq, sn, ln] =>
      match splitFirst ':' sn with
      | [_, chrom] =>
        if chrom.head? = some 'r' then Except.ok none
        else Except.ok (some (emitToks pg_line [sq ++ chars "\tSN:" ++ chrom.drop 1 ++ ['\t'] ++ ln]))
      | _ => Except.error ()
    | _ => Except.error ()
  else Except.ok (some (emitToks pg_line toks))

/-- Outcome classification for the header loop of `as_bam`. -/
inductive StreamErr where
  | emptyOrHeaderOnly
  | lineIndex
  | headerParse
deriving DecidableEq

/-- The header loop of `as_bam` (`for ... else: raise`): consume leading
`@` lines through `handle_header`; the `else` branch — the raised
`Exception("bad or empty fastqs")`, which aborts the run with non-zero
status — fires exactly when the stream ends before any non-header line;
`lineIndex` models `line[0]` on an empty line and `headerParse` an
exception escaping `handle_header`. -/
def as_bam_headers (pg : List Char) :
    List Line → Except StreamErr (List (Option (List Char)) × Line × List Line)
  | [] => Except.error StreamErr.emptyOrHeaderOnly
  | l :: rest =>
    match l.head? with
    | none => Except.error StreamErr.lineIndex
    | some c =>
      if c = '@' then
        match handle_header pg l with
        | Except.error _ => Except.error StreamErr.headerParse
        | Except.ok o =>
          match as_bam_headers pg rest with
          | Except.ok (hs, b, r) => Except.ok (o :: hs, b, r)
          | Except.error e => Except.error e
      else Except.ok ([], l, rest)

/-- Chunking loop of `wrap(text)` with the fixed width of 100 characters;
structural recursion on a fuel of one unit per emitted chunk (each chunk
consumes at least one character, so a fuel of the text length always
suffices and the zero-fuel arm is never reached from `wrap100`). -/
def wrapGo : Nat → List Char → List (List Char)
  | _, [] => []
  | 0, c :: rest => [(c :: rest).take 100]
  | fuel + 1, c :: rest => ((c :: rest).take 100) :: wrapGo fuel ((c :: rest).drop 100)

/-- Function `wrap(text)` with its fixed width of 100 characters. -/
def wrap100 (t : List Char) : List (List Char) := wrapGo t.length t

/-- The ordered sequence of `fh.write` payloads of `convert_fasta`: per
record a reverse-tagged block with `G` to `A` substitution, then a
forward-tagged block with `C` to `T` substitution, both wrapped to 100
columns. -/
def fastaWrites (recs : List (List Char × List Char)) : List (List Char) :=
  (recs.map fun r =>
    (chars ">r" ++ r.1 ++ ['\n']) ::
      ((wrap100 (pyReplace 'G' 'A' r.2)).map (fun l => l ++ ['\n']) ++
        ((chars ">f" ++ r.1 ++ ['\n']) ::
          (wrap100 (pyReplace 'C' 'T' r.2)).map (fun l => l ++ ['\n'])))).flatten

/-- Execute the writes of `convert_fasta` against the just-created output
file (initial content empty); `failAt = some k` makes the write with index
`k` raise. -/
def runWrites : List (List Char) → Option Nat → List (List Char) → Except Unit (List (List Char))
  | [], _, fs => Except.ok fs
  | _ :: _, some 0, _ => Except.error ()
  | w :: rest, some (k + 1), fs => runWrites rest (some k) (fs ++ [w])
  | w :: rest, none, fs => runWrites rest none (fs ++ [w])

/-- The try/except of `convert_fasta` around the write loop: on success the
output file holds every write; on a write error the handler closes the
handle, unlinks the partial file (output state `none`) and re-raises.  The
returned pair is (propagated outcome, final state of the output file). -/
def convert_fasta (recs : List (List Char × List Char)) (failAt : Option Nat) :
    Except Unit Unit × Option (List (List Char)) :=
  match runWrites (fastaWrites recs) failAt [] with
  | Except.ok content => (Except.ok (), some content)
  | Except.error _ => (Except.error (), none)


/-- Concrete header lines for the header-loop witness. -/
def exHeaderLines : List Line :=
  [chars "@HD\tVN:1.0\n", chars "r1\t4\t*\t0\t0\t*\t*\t0\t0\tA\tI\n"]

/-- A 50-character original sequence for the clip-restoration witness. -/
def exO : List Char := chars "ACGTACGTACGTACGTACGTACGTACGTACGTACGTACGTACGTACGTAC"

/-- A mapped alignment record with CIGAR `5H40M5H` and the original
sequence stored in its `YS:Z:` field; the flag argument selects the
strand. -/
def exClipBam (flag : Nat) : Bam :=
  { read := chars "r1", flag := flag, chrom := chars "fchr1", pos := 100
    mapq := 60, cigar := chars "5H40M5H", chrom_mate := chars "=",
    pos_mate := chars "200", tlen := 150, seq := List.replicate 40 'A',
    qual := List.replicate 40 'I',
    other := [chars "YS:Z:" ++ exO, chars "YC:Z:CT"] }

/-- A 100-character original sequence for the chimera witness. -/
def exO100 : List Char := List.replicate 100 'A'

/-- A mapped record parameterised by its CIGAR string, for the chimera and
propagation witnesses. -/
def exChimBam (cigar : List Char) : Bam :=
  { read := chars "r2", flag := 99, chrom := chars "chr1", pos := 1
    mapq := 60, cigar := cigar, chrom_mate := chars "=",
    pos_mate := chars "5", tlen := 0, seq := exO100,
    qual := List.replicate 100 'I', other := [] }

/-- A read group in which exactly one record carries the QC-fail bit. -/
def exQcGroup : List Bam :=
  [exChimBam (chars "100M"), { exChimBam (chars "100M") with flag := 512 }]

/-- An interleaved 8-line FASTQ source: two records with the same base
name in the first and fifth lines. -/
def exInterFq : List Line :=
  [chars "@p 1\n", chars "ACGT\n", chars "+\n", chars "IIII\n",
   chars "@p 2\n", chars "CCCC\n", chars "+\n", chars "IIII\n"]

/-- A single short 4-line record (raw sequence line of length 11). -/
def exShortRec : List Line :=
  [chars "@r\n", chars "AAAAAAAAAA\n", chars "+\n", chars "IIIIIIIIII\n"]

/-- Sixty short records in one source: the first pair of the short-count
counterexample. -/
def exPair1 : List Line := (List.replicate 60 exShortRec).flatten

/-- One long record (raw sequence line of length 101): the second pair of
the short-count counterexample. -/
def exLongRec : List Line :=
  [chars "@s\n", List.replicate 100 'A' ++ ['\n'], chars "+\n",
   List.replicate 100 'I' ++ ['\n']]

/-- The two-pair run of the short-count counterexample: 60 short records
in the first pair, none in the second. -/
def exPairs : List (List Line × Option (List Line)) :=
  [(exPair1, none), (exLongRec, none)]

/-- A one-record single-end source for the amended short-count witness. -/
def exW1 : List Line := [chars "@s\n", chars "ACGT\n", chars "+\n", chars "IIII\n"]

/-- The recoded output stream of `exW1`. -/
def exW1Out : List Char := chars "@s YS:Z:ACGT\tYC:Z:CT\nATGT\n+\nIIII\n"

theorem splitOnChar_ne_nil (sep : Char) (s : List Char) : splitOnChar sep s ≠ [] := by
  cases s with
  | nil => simp [splitOnChar]
  | cons c rest =>
    simp only [splitOnChar]
    cases hrest : splitOnChar sep rest <;> by_cases hc : c = sep <;> simp [hc]

theorem splitOnChar_not_mem {sep : Char} {s : List Char} (h : sep ∉ s) :
    splitOnChar sep s = [s] := by
  induction s with
  | nil => rfl
  | cons c rest ih =>
    have hc : ¬(c = sep) := fun hh => h (hh ▸ List.mem_cons_self c rest)
    have hr : sep ∉ rest := fun hm => h (List.mem_cons_of_mem c hm)
    simp only [splitOnChar]
    rw [ih hr]
    simp [hc]

theorem splitOnChar_append {sep : Char} (xs ys : List Char) (h : sep ∉ xs) :
    splitOnChar sep (xs ++ sep :: ys) = xs :: splitOnChar sep ys := by
  induction xs with
  | nil =>
    simp only [List.nil_append, splitOnChar]
    cases hh : splitOnChar sep ys with
    | nil => exact absurd hh (splitOnChar_ne_nil sep ys)
    | cons a t => simp
  | cons x xt ih =>
    have hx : ¬(x = sep) := fun hh => h (hh ▸ List.mem_cons_self x xt)
    have hr : sep ∉ xt := fun hm => h (List.mem_cons_of_mem x hm)
    rw [List.cons_append]
    simp only [splitOnChar]
    rw [ih hr]
    simp [hx]

theorem pyRstrip_append_ws (xs : List Char) (c : Char) (hc : isPySpace c = true) :
    pyRstrip (xs ++ [c]) = pyRstrip xs := by
  simp [pyRstrip, List.reverse_append, List.dropWhile_cons, hc]

theorem pyRstrip_of_getLast (xs : List Char)
    (h : ∀ c, xs.getLast? = some c → isPySpace c = false) :
    pyRstrip xs = xs := by
  cases hr : xs.reverse with
  | nil =>
    have hx : xs = [] := List.reverse_eq_nil_iff.mp hr
    simp [hx, pyRstrip]
  | cons c t =>
    have hlast : xs.getLast? = some c := by
      rw [← List.head?_reverse, hr]; rfl
    have hx : xs = (c :: t).reverse := by rw [← hr, List.reverse_reverse]
    rw [pyRstrip, hr, List.dropWhile_cons, h c hlast]
    simp [hx]

theorem no_tab {xs : List Char} (h : ∀ c ∈ xs, isPySpace c = false) : '\t' ∉ xs :=
  fun hm => absurd (h _ hm) (by decide)

theorem joinTabs_single (x : List Char) : joinTabs [x] = x := by
  simp [joinTabs, List.intercalate]

theorem takeWhile_ne_append {sep : Char} (xs ys : List Char) (h : sep ∉ xs) :
    (xs ++ sep :: ys).takeWhile (fun c => c ≠ sep) = xs := by
  induction xs with
  | nil => simp [List.takeWhile_cons]
  | cons x xt ih =>
    have hx : decide (x ≠ sep) = true := by
      simp
      exact fun hh => h (hh ▸ List.mem_cons_self x xt)
    have hr : sep ∉ xt := fun hm => h (List.mem_cons_of_mem x hm)
    calc ((x :: xt) ++ sep :: ys).takeWhile (fun c => c ≠ sep)
        = x :: ((xt ++ sep :: ys).takeWhile (fun c => c ≠ sep)) := by
          rw [List.cons_append, List.takeWhile_cons, if_pos hx]
      _ = x :: xt := by rw [ih hr]

theorem splitFirst_append {sep : Char} (xs ys : List Char) (h : sep ∉ xs) :
    splitFirst sep (xs ++ sep :: ys) = [xs, ys] := by
  unfold splitFirst
  rw [takeWhile_ne_append xs ys h]
  have hlen : ¬(xs.length = (xs ++ sep :: ys).length) := by simp
  rw [if_neg hlen]
  have hd : (xs ++ sep :: ys).drop (xs.length + 1) = ys := by
    simp
  rw [hd]

/-- C6: for every sequence-dictionary header line, the rewriter drops the
line when the reference name's strand tag is `r` and otherwise strips the
one-character tag and re-emits the entry with its length field unchanged. -/
theorem sq_header_rewrite (pg ln n : List Char) (t : Char)
    (hn : ∀ c ∈ n, isPySpace c = false)
    (hl : ∀ c ∈ ln, isPySpace c = false)
    (hlnne : ln ≠ [])
    (ht : isPySpace t = false) :
    handle_header pg (chars "@SQ\tSN:" ++ t :: n ++ '\t' :: ln ++ ['\n']) =
      if t = 'r' then Except.ok none
      else Except.ok (some (chars "@SQ\tSN:" ++ n ++ '\t' :: ln ++ ['\n'])) := by
  obtain ⟨lst, hlst⟩ : ∃ c, ln.getLast? = some c := by
    cases hc : ln.getLast? with
    | none => exact absurd (List.getLast?_eq_none_iff.mp hc) hlnne
    | some c => exact ⟨c, rfl⟩
  have h1 : pyRstrip (chars "@SQ\tSN:" ++ t :: n ++ '\t' :: ln ++ ['\n']) =
      chars "@SQ\tSN:" ++ t :: n ++ '\t' :: ln := by
    have e1 : chars "@SQ\tSN:" ++ t :: n ++ '\t' :: ln ++ ['\n'] =
        (chars "@SQ\tSN:" ++ t :: n ++ '\t' :: ln) ++ ['\n'] := by
      simp [List.append_assoc]
    rw [e1, pyRstrip_append_ws _ _ (by decide)]
    apply pyRstrip_of_getLast
    intro c hc
    have e2 : chars "@SQ\tSN:" ++ t :: n ++ '\t' :: ln =
        (chars "@SQ\tSN:" ++ t :: n ++ ['\t']) ++ ln := by
      simp [List.append_assoc]
    rw [e2, List.getLast?_append, hlst] at hc
    simp only [Option.or] at hc
    cases hc
    exact hl lst (List.mem_of_mem_getLast? hlst)
  have h2 : splitOnChar '\t' (chars "@SQ\tSN:" ++ t :: n ++ '\t' :: ln) =
      [chars "@SQ", chars "SN:" ++ t :: n, ln] := by
    have e3 : chars "@SQ\tSN:" ++ t :: n ++ '\t' :: ln =
        chars "@SQ" ++ '\t' :: ((chars "SN:" ++ t :: n) ++ '\t' :: ln) := by
      simp only [List.append_assoc]; rfl
    have hmem : '\t' ∉ chars "SN:" ++ t :: n := by
      intro hm
      rcases List.mem_append.mp hm with hm1 | hm2
      · revert hm1; decide
      · rcases List.mem_cons.mp hm2 with hm2a | hm3
        · rw [← hm2a] at ht
          exact absurd ht (by decide)
        · exact absurd (hn _ hm3) (by decide)
    rw [e3, splitOnChar_append _ _ (by decide), splitOnChar_append _ _ hmem,
      splitOnChar_not_mem (no_tab hl)]
  have h3 : splitFirst ':' (chars "SN:" ++ t :: n) = [chars "SN", t :: n] := by
    have e4 : chars "SN:" ++ t :: n = chars "SN" ++ ':' :: (t :: n) := rfl
    rw [e4, splitFirst_append _ _ (by decide)]
  rw [handle_header]
  simp only [h1, h2, List.headD_cons]
  rw [if_pos (by decide : (chars "@SQ").isPrefixOf (chars "@SQ") = true)]
  simp only [h3, List.head?_cons]
  by_cases htr : t = 'r'
  · subst htr
    simp
  · rw [if_neg (by simp [htr]), if_neg htr]
    simp only [List.drop_succ_cons, List.drop_zero]
    have h4 : (chars "@PG").isPrefixOf
        (chars "@SQ" ++ chars "\tSN:" ++ n ++ ['\t'] ++ ln) = false := by
      rw [show chars "@PG" = ['@', 'P', 'G'] from rfl]
      rw [show chars "@SQ" ++ chars "\tSN:" ++ n ++ ['\t'] ++ ln =
        '@' :: 'S' :: 'Q' :: '\t' :: 'S' :: 'N' :: ':' :: (n ++ '\t' :: ln) from by
          simp only [List.append_assoc]; rfl]
      simp [List.isPrefixOf]
    simp only [emitToks, List.headD_cons, h4, Bool.false_eq_true, if_false, joinTabs_single]
    rw [show chars "@SQ\tSN:" ++ n ++ '\t' :: ln ++ ['\n'] =
      chars "@SQ" ++ chars "\tSN:" ++ n ++ '\t' :: ln ++ ['\n'] from by
        simp only [List.append_assoc]; rfl]
    simp [List.append_assoc]

/-- C6 witness: the dictionary entries `fchr1` and `rchr1`, both with
`LN:100`, rewrite to exactly one `chr1` entry with its length field
unchanged and no entry for the reverse-tagged copy. -/
theorem sq_header_rewrite_check :
    handle_header [] (chars "@SQ\tSN:fchr1\tLN:100\n") =
      Except.ok (some (chars "@SQ\tSN:chr1\tLN:100\n")) ∧
    handle_header [] (chars "@SQ\tSN:rchr1\tLN:100\n") = Except.ok none := by
  constructor
  · have h := sq_header_rewrite [] (chars "LN:100") (chars "chr1") 'f'
      (by decide) (by decide) (by decide) (by decide)
    rw [if_neg (by decide)] at h
    exact h
  · have h := sq_header_rewrite [] (chars "LN:100") (chars "chr1") 'r'
      (by decide) (by decide) (by decide) (by decide)
    rw [if_pos (by decide)] at h
    exact h

/-- C10: the rewriter re-emits an `@SQ` line only when it has exactly three
tab-separated fields; any other field count makes the three-way unpacking
raise instead of emitting. -/
theorem sq_header_arity (pg line : List Char)
    (hsq : (chars "@SQ").isPrefixOf
      ((splitOnChar '\t' (pyRstrip line)).headD []) = true)
    (hlen : (splitOnChar '\t' (pyRstrip line)).length ≠ 3) :
    handle_header pg line = Except.error () := by
  rw [handle_header]
  simp only [hsq, if_true]
  rcases h : splitOnChar '\t' (pyRstrip line) with _ | ⟨a, _ | ⟨b, _ | ⟨c, _ | d⟩⟩⟩ <;>
    simp_all

/-- C10 witness: a standard sequence-dictionary line carrying an extra
`M5:` auxiliary field raises instead of being rewritten. -/
theorem sq_header_arity_check :
    handle_header [] (chars "@SQ\tSN:fchr1\tLN:100\tM5:abc\n") = Except.error () :=
  sq_header_arity [] (chars "@SQ\tSN:fchr1\tLN:100\tM5:abc\n") (by decide) (by decide)

/-- C7: the header loop of `as_bam` consumes exactly the leading header
lines, stopping at the first non-header line; the fatal bad-or-empty error
fires precisely when the stream ends (possibly immediately) while every
line is a successfully handled header line, and a stream containing a
record line never reaches that error. -/
theorem header_stream_contract (pg : List Char) (lines : List Line)
    (hne : ∀ l ∈ lines, l ≠ ([] : List Char)) :
    (as_bam_headers pg lines = Except.error StreamErr.emptyOrHeaderOnly ↔
      ∀ l ∈ lines, l.head? = some '@' ∧ handle_header pg l ≠ Except.error ()) ∧
    (∀ hs b r, as_bam_headers pg lines = Except.ok (hs, b, r) →
      ∃ hdr, lines = hdr ++ b :: r ∧ (∀ l ∈ hdr, l.head? = some '@') ∧
        b.head? ≠ some '@') := by
  induction lines with
  | nil =>
    constructor
    · simp [as_bam_headers]
    · intro hs b r hok
      simp [as_bam_headers] at hok
  | cons l rest ih =>
    have hlne : l ≠ [] := hne l (List.mem_cons_self l rest)
    have hrest : ∀ x ∈ rest, x ≠ ([] : List Char) :=
      fun x hx => hne x (List.mem_cons_of_mem l hx)
    obtain ⟨c, ltail, hl⟩ : ∃ c ltail, l = c :: ltail := by
      cases l with
      | nil => exact absurd rfl hlne
      | cons c ltail => exact ⟨c, ltail, rfl⟩
    subst hl
    obtain ⟨ih1, ih2⟩ := ih hrest
    by_cases hc : c = '@'
    · subst hc
      cases hh : handle_header pg ('@' :: ltail) with
      | error e =>
        cases e
        have hres : as_bam_headers pg (('@' :: ltail) :: rest) =
            Except.error StreamErr.headerParse := by
          simp [as_bam_headers, hh]
        constructor
        · rw [hres]
          constructor
          · intro habs
            simp at habs
          · intro hall
            exact absurd hh ((hall _ (List.mem_cons_self _ _)).2)
        · intro hs b r hok
          rw [hres] at hok
          simp at hok
      | ok o =>
        cases hrec : as_bam_headers pg rest with
        | error e2 =>
          have hres : as_bam_headers pg (('@' :: ltail) :: rest) = Except.error e2 := by
            simp [as_bam_headers, hh, hrec]
          constructor
          · rw [hres]
            rw [hrec] at ih1
            rw [ih1]
            constructor
            · intro hrestall l hl
              rcases List.mem_cons.mp hl with h1 | h2
              · subst h1
                exact ⟨rfl, by simp [hh]⟩
              · exact hrestall l h2
            · intro hall l hl
              exact hall l (List.mem_cons_of_mem _ hl)
          · intro hs b r hok
            rw [hres] at hok
            simp at hok
        | ok res =>
          obtain ⟨hs', b', r'⟩ := res
          have hres : as_bam_headers pg (('@' :: ltail) :: rest) =
              Except.ok (o :: hs', b', r') := by
            simp [as_bam_headers, hh, hrec]
          obtain ⟨hdr, hrw, hhd, hbnh⟩ := ih2 hs' b' r' hrec
          constructor
          · rw [hres]
            constructor
            · intro habs
              simp at habs
            · intro hall
              have hb' : b' ∈ rest := by
                rw [hrw]
                exact List.mem_append_right _ (List.mem_cons_self _ _)
              exact absurd ((hall _ (List.mem_cons_of_mem _ hb')).1) hbnh
          · intro hs b r hok
            rw [hres] at hok
            simp only [Except.ok.injEq, Prod.mk.injEq] at hok
            obtain ⟨hok1, hok2, hok3⟩ := hok
            refine ⟨('@' :: ltail) :: hdr, ?_, ?_, ?_⟩
            · rw [List.cons_append, ← hok2, ← hok3, ← hrw]
            · intro x hx
              rcases List.mem_cons.mp hx with hxa | hxb
              · rw [hxa]; rfl
              · exact hhd x hxb
            · rw [← hok2]; exact hbnh
    · have hres : as_bam_headers pg ((c :: ltail) :: rest) =
          Except.ok ([], c :: ltail, rest) := by
        simp [as_bam_headers, hc]
      constructor
      · rw [hres]
        constructor
        · intro habs
          simp at habs
        · intro hall
          have h5 := (hall _ (List.mem_cons_self _ _)).1
          simp at h5
          exact absurd h5 hc
      · intro hs b r hok
        rw [hres] at hok
        simp only [Except.ok.injEq, Prod.mk.injEq] at hok
        obtain ⟨hok1, hok2, hok3⟩ := hok
        refine ⟨[], ?_, ?_, ?_⟩
        · rw [List.nil_append, hok2, hok3]
        · intro x hx
          simp at hx
        · rw [← hok2]
          simp [hc]

/-- C7 witness: the contract instantiated on a concrete two-line stream
(one header line, one record line). -/
theorem header_stream_contract_check :
    ((as_bam_headers [] exHeaderLines = Except.error StreamErr.emptyOrHeaderOnly ↔
      ∀ l ∈ exHeaderLines, l.head? = some '@' ∧ handle_header [] l ≠ Except.error ()) ∧
    (∀ hs b r, as_bam_headers [] exHeaderLines = Except.ok (hs, b, r) →
      ∃ hdr, exHeaderLines = hdr ++ b :: r ∧ (∀ l ∈ hdr, l.head? = some '@') ∧
        b.head? ≠ some '@')) :=
  header_stream_contract [] exHeaderLines (by decide)

theorem rstripNl_of_getLast (xs : List Char)
    (h : ∀ c, xs.getLast? = some c → ¬(c = '\n')) :
    rstripNl xs = xs := by
  cases hr : xs.reverse with
  | nil =>
    have hx : xs = [] := List.reverse_eq_nil_iff.mp hr
    simp [hx, rstripNl]
  | cons c t =>
    have hlast : xs.getLast? = some c := by
      rw [← List.head?_reverse, hr]; rfl
    have hx : xs = (c :: t).reverse := by rw [← hr, List.reverse_reverse]
    rw [rstripNl, hr, List.dropWhile_cons]
    simp [h c hlast, hx]

theorem rstripNl_append_nl (xs : List Char) : rstripNl (xs ++ ['\n']) = rstripNl xs := by
  simp [rstripNl, List.reverse_append, List.dropWhile_cons]

theorem dropWhile_no_space (xs ys : List Char) (h : ∀ c ∈ xs, ¬(c = ' ')) :
    (xs ++ ' ' :: ys).dropWhile (fun c => c ≠ ' ') = ' ' :: ys := by
  induction xs with
  | nil => simp [List.dropWhile_cons]
  | cons x xt ih =>
    have hx : decide (x ≠ ' ') = true := by simp [h x (List.mem_cons_self x xt)]
    have hr : ∀ c ∈ xt, ¬(c = ' ') := fun c hc => h c (List.mem_cons_of_mem x hc)
    calc ((x :: xt) ++ ' ' :: ys).dropWhile (fun c => c ≠ ' ')
        = (xt ++ ' ' :: ys).dropWhile (fun c => c ≠ ' ') := by
          rw [List.cons_append, List.dropWhile_cons, if_pos hx]
      _ = ' ' :: ys := ih hr

/-- The comment fields recovered from a recoded read's header line. -/
theorem comment_fields_recode (base s2 : List Char) (a b : Char)
    (hbase : ∀ c ∈ base, ¬(c = ' '))
    (hs2tab : '\t' ∉ s2)
    (hat : ¬(a = '\t')) (hbt : ¬(b = '\t')) (hbn : ¬(b = '\n')) :
    comment_fields (base ++ [' '] ++ chars "YS:Z:" ++ s2 ++ chars "\tYC:Z:" ++ [a, b] ++ ['\n']) =
      [chars "YS:Z:" ++ s2, chars "YC:Z:" ++ [a, b]] := by
  unfold comment_fields
  have e1 : base ++ [' '] ++ chars "YS:Z:" ++ s2 ++ chars "\tYC:Z:" ++ [a, b] ++ ['\n'] =
      base ++ ' ' :: (chars "YS:Z:" ++ s2 ++ chars "\tYC:Z:" ++ [a, b] ++ ['\n']) := by
    simp [List.append_assoc]
  rw [e1, dropWhile_no_space _ _ hbase]
  rw [show (' ' :: (chars "YS:Z:" ++ s2 ++ chars "\tYC:Z:" ++ [a, b] ++ ['\n'])).drop 1 =
    chars "YS:Z:" ++ s2 ++ chars "\tYC:Z:" ++ [a, b] ++ ['\n'] from rfl]
  have e2 : chars "YS:Z:" ++ s2 ++ chars "\tYC:Z:" ++ [a, b] ++ ['\n'] =
      (chars "YS:Z:" ++ s2 ++ chars "\tYC:Z:" ++ [a, b]) ++ ['\n'] := by
    simp [List.append_assoc]
  rw [e2, rstripNl_append_nl]
  have e3 : chars "YS:Z:" ++ s2 ++ chars "\tYC:Z:" ++ [a, b] =
      (chars "YS:Z:" ++ s2 ++ chars "\tYC:Z:") ++ [a, b] := by
    simp [List.append_assoc]
  have h4 : rstripNl (chars "YS:Z:" ++ s2 ++ chars "\tYC:Z:" ++ [a, b]) =
      chars "YS:Z:" ++ s2 ++ chars "\tYC:Z:" ++ [a, b] := by
    apply rstripNl_of_getLast
    intro c hc
    rw [e3, List.getLast?_append] at hc
    simp only [List.getLast?, Option.or] at hc
    cases hc
    exact hbn
  rw [h4]
  have e5 : chars "YS:Z:" ++ s2 ++ chars "\tYC:Z:" ++ [a, b] =
      (chars "YS:Z:" ++ s2) ++ '\t' :: (chars "YC:Z:" ++ [a, b]) := by
    simp only [List.append_assoc]
    rfl
  have hm1 : '\t' ∉ chars "YS:Z:" ++ s2 := by
    intro hm
    rcases List.mem_append.mp hm with hm1 | hm2
    · revert hm1; decide
    · exact hs2tab hm2
  have hm2 : '\t' ∉ chars "YC:Z:" ++ [a, b] := by
    intro hm
    rcases List.mem_append.mp hm with hma | hmb
    · revert hma; decide
    · rcases List.mem_cons.mp hmb with hba | hbb
      · exact hat hba.symm
      · rcases List.mem_cons.mp hbb with hbc | hbd
        · exact hbt hbc.symm
        · simp at hbd
  rw [e5, splitOnChar_append _ _ hm1, splitOnChar_not_mem hm2]

/-- C2: recoding a nucleotide sequence for either mate embeds a `YS:Z:`
auxiliary field and a 2-letter `YC:Z:` code (`CT` for mate 0, `GA` for
mate 1) in the record's name, and re-deriving the original-sequence field
from the recoded record returns exactly the input sequence. -/
theorem recode_roundtrip (name s qual : List Char) (m : Nat)
    (hm : m < 2)
    (hn : (firstField (rstripCrNl name)).head? = some '@')
    (hs : ∀ c ∈ s, c = 'A' ∨ c = 'C' ∨ c = 'G' ∨ c = 'T') :
    ∃ r, convert_read name s qual m = Except.ok r ∧
      original_seq (comment_fields r.name_line) = some s ∧
      (comment_fields r.name_line).getD 1 [] =
        chars "YC:Z:" ++ (if m = 0 then chars "CT" else chars "GA") ∧
      r.seq = pyReplace (if m = 0 then 'C' else 'G') (if m = 0 then 'T' else 'A') s := by
  have hupper : pyUpper s = s := by
    unfold pyUpper
    have hcong : s.map Char.toUpper = s.map id :=
      List.map_congr_left fun c hc => by
        rcases hs c hc with h | h | h | h <;> subst h <;> decide
    rw [hcong, List.map_id]
  have hnl : rstripNl s = s := by
    apply rstripNl_of_getLast
    intro c hc
    rcases hs c (List.mem_of_mem_getLast? hc) with h | h | h | h <;> subst h <;> decide
  have hnp : ∀ c ∈ stripMateTag (firstField (rstripCrNl name)), ¬(c = ' ') := by
    intro c hc
    have hc2 : c ∈ firstField (rstripCrNl name) := by
      revert hc
      unfold stripMateTag
      split
      · exact fun hc => List.mem_of_mem_take hc
      · split
        · exact fun hc => List.mem_of_mem_take hc
        · exact fun hc => hc
    have := List.mem_takeWhile_imp hc2
    simpa using this
  have hs2tab : '\t' ∉ s := by
    intro hm2
    rcases hs _ hm2 with h | h | h | h <;> cases h
  obtain rfl | rfl : m = 0 ∨ m = 1 := by omega
  · have hconv : convert_read name s qual 0 = Except.ok
        { name_line := stripMateTag (firstField (rstripCrNl name)) ++ [' '] ++
            chars "YS:Z:" ++ s ++ chars "\tYC:Z:" ++ ['C', 'T'] ++ ['\n'],
          seq := pyReplace 'C' 'T' s, qual := qual } := by
      simp only [convert_read.eq_def, hn, hupper, hnl]
      rfl
    refine ⟨_, hconv, ?_, ?_, ?_⟩
    · rw [comment_fields_recode _ _ _ _ hnp hs2tab (by decide) (by decide) (by decide)]
      unfold original_seq
      rw [List.find?_cons_of_pos _ (List.isPrefixOf_iff_prefix.mpr ⟨s, rfl⟩)]
      simp only [Option.map_some']
      rw [show (5 : Nat) = (chars "YS:Z:").length from rfl, List.drop_left]
    · rw [comment_fields_recode _ _ _ _ hnp hs2tab (by decide) (by decide) (by decide)]
      rfl
    · rfl
  · have hconv : convert_read name s qual 1 = Except.ok
        { name_line := stripMateTag (firstField (rstripCrNl name)) ++ [' '] ++
            chars "YS:Z:" ++ s ++ chars "\tYC:Z:" ++ ['G', 'A'] ++ ['\n'],
          seq := pyReplace 'G' 'A' s, qual := qual } := by
      simp only [convert_read.eq_def, hn, hupper, hnl]
      rfl
    refine ⟨_, hconv, ?_, ?_, ?_⟩
    · rw [comment_fields_recode _ _ _ _ hnp hs2tab (by decide) (by decide) (by decide)]
      unfold original_seq
      rw [List.find?_cons_of_pos _ (List.isPrefixOf_iff_prefix.mpr ⟨s, rfl⟩)]
      simp only [Option.map_some']
      rw [show (5 : Nat) = (chars "YS:Z:").length from rfl, List.drop_left]
    · rw [comment_fields_recode _ _ _ _ hnp hs2tab (by decide) (by decide) (by decide)]
      rfl
    · rfl

/-- C2 witness: the round trip at a concrete read, mate 0. -/
theorem recode_roundtrip_check :
    ∃ r, convert_read (chars "@r1 extra\n") (chars "ACGT") (chars "IIII") 0 = Except.ok r ∧
      original_seq (comment_fields r.name_line) = some (chars "ACGT") ∧
      (comment_fields r.name_line).getD 1 [] =
        chars "YC:Z:" ++ (if 0 = 0 then chars "CT" else chars "GA") ∧
      r.seq = pyReplace (if 0 = 0 then 'C' else 'G') (if 0 = 0 then 'T' else 'A') (chars "ACGT") :=
  recode_roundtrip (chars "@r1 extra\n") (chars "ACGT") (chars "IIII") 0
    (by decide) (by decide) (by decide)

theorem andNot_testBit (m n i : Nat) :
    (andNot m n).testBit i = (m.testBit i && !(n.testBit i)) :=
  Nat.testBit_bitwise (by rfl) m n i

theorem testBit_512 (i : Nat) : (512 : Nat).testBit i = decide (9 = i) := by
  rw [show (512 : Nat) = 2 ^ 9 from rfl, Nat.testBit_two_pow]

theorem testBit_2 (i : Nat) : (2 : Nat).testBit i = decide (1 = i) := by
  rw [show (2 : Nat) = 2 ^ 1 from rfl, Nat.testBit_two_pow]

theorem testBit_16 (i : Nat) : (16 : Nat).testBit i = decide (4 = i) := by
  rw [show (16 : Nat) = 2 ^ 4 from rfl, Nat.testBit_two_pow]

/-- The QC-fail flag update `(f | 0x200) & ~0x2` sets bit 9. -/
theorem qcfix_testBit9 (f : Nat) : (andNot (f ||| 512) 2).testBit 9 = true := by
  simp [andNot_testBit, Nat.testBit_lor, testBit_512, testBit_2]

/-- The QC-fail flag update `(f | 0x200) & ~0x2` clears bit 1. -/
theorem qcfix_testBit1 (f : Nat) : (andNot (f ||| 512) 2).testBit 1 = false := by
  simp [andNot_testBit, Nat.testBit_lor, testBit_512, testBit_2]

/-- The QC-fail flag update leaves the strand bit (0x10) unchanged. -/
theorem qcfix_and16 (f : Nat) : (andNot (f ||| 512) 2) &&& 16 = f &&& 16 := by
  apply Nat.eq_of_testBit_eq
  intro i
  simp only [Nat.testBit_land, andNot_testBit, Nat.testBit_lor, testBit_512, testBit_2,
    testBit_16]
  by_cases h4 : 4 = i
  · subst h4; simp
  · simp [h4]

/-- Setting the QC-fail bit leaves the strand bit (0x10) unchanged. -/
theorem lor512_and16 (f : Nat) : (f ||| 512) &&& 16 = f &&& 16 := by
  apply Nat.eq_of_testBit_eq
  intro i
  simp only [Nat.testBit_land, Nat.testBit_lor, testBit_512, testBit_16]
  by_cases h4 : 4 = i
  · subst h4; simp
  · simp [h4]

theorem and512_ne_iff (f : Nat) : (f &&& 512 ≠ 0) ↔ f.testBit 9 = true := by
  rw [show (512 : Nat) = 2 ^ 9 from rfl, Nat.and_two_pow]
  cases h : f.testBit 9 <;> simp [h]

/-- C3: with the chimera heuristic enabled, a mapped record whose longest
match run is strictly below 44% of the original sequence length gets the
QC-fail bit set, the properly-paired bit cleared and its mapping quality
capped at 1; at or above 44% the rule changes nothing. -/
theorem chimera_rule (o : List Char) (aln : Bam) (m : Nat)
    (hm : longest_match aln.cigar = some m) :
    (100 * m < 44 * o.length →
      chimera_step o aln =
        Except.ok { aln with flag := andNot (aln.flag ||| 0x200) 0x2, mapq := min aln.mapq 1 } ∧
      (andNot (aln.flag ||| 0x200) 0x2).testBit 9 = true ∧
      (andNot (aln.flag ||| 0x200) 0x2).testBit 1 = false) ∧
    (44 * o.length ≤ 100 * m → chimera_step o aln = Except.ok aln) := by
  have hiff : ((m : ℚ) < (o.length : ℚ) * (44 / 100 : ℚ)) ↔ 100 * m < 44 * o.length := by
    constructor
    · intro h
      have h2 : (100 : ℚ) * m < 44 * o.length := by nlinarith
      exact_mod_cast h2
    · intro h
      have h2 : (100 : ℚ) * m < 44 * o.length := by exact_mod_cast h
      nlinarith
  simp only [chimera_step, hm]
  by_cases hc : 100 * m < 44 * o.length
  · rw [if_pos (hiff.mpr hc)]
    exact ⟨fun _ => ⟨rfl, qcfix_testBit9 _, qcfix_testBit1 _⟩,
      fun hge => absurd hc (by omega)⟩
  · rw [if_neg (fun hl => hc (hiff.mp hl))]
    exact ⟨fun hlt => absurd hlt hc, fun _ => rfl⟩

/-- C3 witness: original length 100; a longest run of 40 triggers all
three effects, a longest run of 45 triggers none. -/
theorem chimera_rule_check :
    (chimera_step exO100 (exChimBam (chars "40M60S")) =
      Except.ok { exChimBam (chars "40M60S") with
        flag := andNot ((exChimBam (chars "40M60S")).flag ||| 0x200) 0x2,
        mapq := min (exChimBam (chars "40M60S")).mapq 1 } ∧
      (andNot ((exChimBam (chars "40M60S")).flag ||| 0x200) 0x2).testBit 9 = true ∧
      (andNot ((exChimBam (chars "40M60S")).flag ||| 0x200) 0x2).testBit 1 = false) ∧
    chimera_step exO100 (exChimBam (chars "45M55S")) =
      Except.ok (exChimBam (chars "45M55S")) :=
  ⟨(chimera_rule exO100 (exChimBam (chars "40M60S")) 40 (by decide)).1 (by decide),
   (chimera_rule exO100 (exChimBam (chars "45M55S")) 45 (by decide)).2 (by decide)⟩

/-- C4: after per-record decoding, if any record of a read group carries
the QC-fail bit, every record of the group ends with QC-fail set and
properly-paired cleared (and only the flag field changes); if no record
carries it, the propagation step changes nothing. -/
theorem qc_fail_propagation (alns : List Bam) :
    ((∃ a ∈ alns, a.flag.testBit 9 = true) →
      qc_propagate alns =
        alns.map (fun a => { a with flag := andNot (a.flag ||| 0x200) 0x2 }) ∧
      ∀ b ∈ qc_propagate alns, b.flag.testBit 9 = true ∧ b.flag.testBit 1 = false) ∧
    ((∀ a ∈ alns, a.flag.testBit 9 = false) → qc_propagate alns = alns) := by
  have hany : (alns.any fun a => (a.flag &&& 0x200) != 0) = true ↔
      ∃ a ∈ alns, a.flag.testBit 9 = true := by
    rw [List.any_eq_true]
    constructor
    · rintro ⟨a, ha, hba⟩
      refine ⟨a, ha, (and512_ne_iff _).mp ?_⟩
      simpa using hba
    · rintro ⟨a, ha, hba⟩
      refine ⟨a, ha, ?_⟩
      have h2 := (and512_ne_iff a.flag).mpr hba
      simpa using h2
  constructor
  · intro hex
    have h1 : qc_propagate alns =
        alns.map (fun a => { a with flag := andNot (a.flag ||| 0x200) 0x2 }) := by
      unfold qc_propagate
      rw [if_pos (hany.mpr hex)]
    refine ⟨h1, ?_⟩
    intro b hb
    rw [h1] at hb
    obtain ⟨a, ha, rfl⟩ := List.mem_map.mp hb
    exact ⟨qcfix_testBit9 _, qcfix_testBit1 _⟩
  · intro hall
    unfold qc_propagate
    rw [if_neg (fun habs => by
      obtain ⟨a, ha, hba⟩ := hany.mp habs
      rw [hall a ha] at hba
      exact Bool.false_ne_true hba)]

/-- C4 witness: a two-record group in which exactly one record carries the
QC-fail bit ends with both records QC-failed and un-paired. -/
theorem qc_fail_propagation_check :
    qc_propagate exQcGroup =
      exQcGroup.map (fun a => { a with flag := andNot (a.flag ||| 0x200) 0x2 }) ∧
    ∀ b ∈ qc_propagate exQcGroup, b.flag.testBit 9 = true ∧ b.flag.testBit 1 = false :=
  (qc_fail_propagation exQcGroup).1 (by decide)

theorem hSum_eq_hBefore (ops : List (Nat × List Char)) : hSum ops = hBefore ops := by
  induction ops with
  | nil => rfl
  | cons p rest ih =>
    obtain ⟨n, op⟩ := p
    by_cases hM : op = ['M']
    · subst hM
      simp [hSum, hBefore, List.takeWhile_cons]
    · by_cases hH : op = ['H']
      · subst hH
        simp [hSum, hBefore, List.takeWhile_cons, List.filter_cons, hM, ih]
      · simp [hSum, hBefore, List.takeWhile_cons, List.filter_cons, hM, hH, ih]

theorem pySlice_eq (o : List Char) (l : Nat) (cig : List Char) :
    pySlice o l (right_shift cig) = (o.take (o.length - right_shift_sum cig)).drop l := by
  by_cases h : right_shift_sum cig = 0
  · simp [pySlice, right_shift, h, List.take_length]
  · have hlt : (-(right_shift_sum cig : Int)) < 0 := by omega
    simp only [right_shift, if_neg h, pySlice]
    rw [if_pos hlt]
    congr 2
    omega

/-- The restored sequence is the original (reverse-complemented first on
the minus strand) sliced from the left hard-clip offset to the length
minus the right hard-clip offset. -/
theorem restore_seq_eq (o : List Char) (a : Bam) :
    restore_seq o a =
      (if a.flag &&& 0x10 = 0 then
        (o.take (o.length - hAfter (cigs a.cigar))).drop (hBefore (cigs a.cigar))
      else
        ((comp o.reverse).take (o.length - hAfter (cigs a.cigar))).drop
          (hBefore (cigs a.cigar))) := by
  have hL : left_shift a.cigar = hBefore (cigs a.cigar) := hSum_eq_hBefore _
  have hR : right_shift_sum a.cigar = hAfter (cigs a.cigar) := hSum_eq_hBefore _
  unfold restore_seq
  rw [pySlice_eq, pySlice_eq]
  by_cases hstrand : a.flag &&& 0x10 = 0
  · rw [if_pos hstrand, if_pos hstrand, hL, hR]
  · rw [if_neg hstrand, if_neg hstrand, hL, hR, List.length_reverse]
    rw [comp, comp, List.map_drop, List.map_take]

theorem chimera_step_ok (o : List Char) (a : Bam) (hm : mRuns a.cigar [] ≠ []) :
    ∃ g q, chimera_step o a = Except.ok { a with flag := g, mapq := q } ∧
      g &&& 16 = a.flag &&& 16 := by
  obtain ⟨v, hlm⟩ : ∃ v, longest_match a.cigar = some v := by
    cases hmx : (mRuns a.cigar []).max? with
    | none => exact absurd (List.max?_eq_none_iff.mp hmx) hm
    | some v => exact ⟨v, by rw [longest_match, hmx]⟩
  simp only [chimera_step, hlm]
  by_cases hc : ((v : ℚ) < (o.length : ℚ) * (44 / 100 : ℚ))
  · rw [if_pos hc]
    exact ⟨_, _, rfl, qcfix_and16 _⟩
  · rw [if_neg hc]
    exact ⟨a.flag, a.mapq, rfl, rfl⟩

theorem drop_ys_flag (a : Bam) : (drop_ys a).flag = a.flag := rfl

theorem drop_ys_chrom (a : Bam) : (drop_ys a).chrom = a.chrom := rfl

theorem drop_ys_cigar (a : Bam) : (drop_ys a).cigar = a.cigar := rfl

theorem drop_ys_chrom_mate (a : Bam) : (drop_ys a).chrom_mate = a.chrom_mate := rfl

theorem tag_yd_flag (dc : Char) (cres : List Char) (a : Bam) :
    (tag_yd dc cres a).flag = a.flag := rfl

theorem tag_yd_cigar (dc : Char) (cres : List Char) (a : Bam) :
    (tag_yd dc cres a).cigar = a.cigar := rfl

theorem tag_yd_chrom_mate (dc : Char) (cres : List Char) (a : Bam) :
    (tag_yd dc cres a).chrom_mate = a.chrom_mate := rfl

theorem flag_strand_cigar (saf : Option Char) (dc : Char) (a : Bam) :
    (flag_strand saf dc a).cigar = a.cigar := by
  unfold flag_strand
  split <;> rfl

theorem flag_strand_chrom_mate (saf : Option Char) (dc : Char) (a : Bam) :
    (flag_strand saf dc a).chrom_mate = a.chrom_mate := by
  unfold flag_strand
  split <;> rfl

theorem flag_strand_flag16 (saf : Option Char) (dc : Char) (a : Bam) :
    (flag_strand saf dc a).flag &&& 16 = a.flag &&& 16 := by
  unfold flag_strand
  split
  · exact lor512_and16 _
  · rfl

theorem strip_mate_strand_flag (md : Char) (mr : List Char) (a : Bam) :
    (strip_mate_strand md mr a).flag = a.flag := by
  unfold strip_mate_strand
  split <;> rfl

theorem strip_mate_strand_cigar (md : Char) (mr : List Char) (a : Bam) :
    (strip_mate_strand md mr a).cigar = a.cigar := by
  unfold strip_mate_strand
  split <;> rfl

/-- The chimera stage of the decoder (possibly disabled) succeeds on a
CIGAR with a match run and touches only the flag (strand bit untouched)
and the mapping quality. -/
theorem step3_ok (o : List Char) (dnpc : Bool) (a2 : Bam) (hm : mRuns a2.cigar [] ≠ []) :
    ∃ g q, (if dnpc then Except.ok a2 else chimera_step o a2) =
      Except.ok { a2 with flag := g, mapq := q } ∧ g &&& 16 = a2.flag &&& 16 := by
  by_cases hdn : dnpc
  · rw [if_pos hdn]
    exact ⟨a2.flag, a2.mapq, rfl, rfl⟩
  · rw [if_neg hdn]
    exact chimera_step_ok o a2 hm

/-- The final record of the mapped branch restores the sequence to the
claim's slice expression. -/
theorem restore_final (o : List Char) (aln : Bam) (md : Char) (mr : List Char) (a3 : Bam)
    (hf : a3.flag &&& 16 = aln.flag &&& 16) (hc : a3.cigar = aln.cigar) :
    ({ strip_mate_strand md mr a3 with
        seq := restore_seq o (strip_mate_strand md mr a3) }).seq =
      (if aln.flag &&& 0x10 = 0 then
        (o.take (o.length - hAfter (cigs aln.cigar))).drop (hBefore (cigs aln.cigar))
      else
        ((comp o.reverse).take (o.length - hAfter (cigs aln.cigar))).drop
          (hBefore (cigs aln.cigar))) := by
  show restore_seq o (strip_mate_strand md mr a3) = _
  rw [restore_seq_eq]
  rw [show (strip_mate_strand md mr a3).flag = a3.flag from strip_mate_strand_flag md mr a3]
  rw [show (strip_mate_strand md mr a3).cigar = a3.cigar from strip_mate_strand_cigar md mr a3]
  rw [hf, hc]

/-- C1: a mapped record's stored sequence is replaced by the slice of the
original sequence from the left hard-clip sum to the length minus the
right hard-clip sum on the plus strand, and by the reverse complement of
the original sliced by the same offsets on the minus strand. -/
theorem clip_restore_rule (saf : Option Char) (dnpc : Bool) (aln : Bam) (o : List Char)
    (h1 : original_seq aln.other = some o)
    (h2 : aln.seq.length = aln.qual.length)
    (h3 : aln.flag &&& 0x4 = 0)
    (d : Char) (cr : List Char) (h4 : aln.chrom = d :: cr)
    (h5 : d = 'f' ∨ d = 'r')
    (h6 : mRuns aln.cigar [] ≠ [])
    (md : Char) (mr : List Char) (h7 : aln.chrom_mate = md :: mr) :
    ∃ b, processRecord saf dnpc aln = Except.ok b ∧
      b.seq = (if aln.flag &&& 0x10 = 0 then
          (o.take (o.length - hAfter (cigs aln.cigar))).drop (hBefore (cigs aln.cigar))
        else
          ((comp o.reverse).take (o.length - hAfter (cigs aln.cigar))).drop
            (hBefore (cigs aln.cigar))) := by
  have hm2 : mRuns (flag_strand saf d (tag_yd d cr (drop_ys aln))).cigar [] ≠ [] := by
    rw [flag_strand_cigar, tag_yd_cigar, drop_ys_cigar]
    exact h6
  obtain ⟨g, q, hch, hg16⟩ := step3_ok o dnpc (flag_strand saf d (tag_yd d cr (drop_ys aln))) hm2
  have hA2f : (flag_strand saf d (tag_yd d cr (drop_ys aln))).flag &&& 16 =
      aln.flag &&& 16 := by
    rw [flag_strand_flag16, tag_yd_flag, drop_ys_flag]
  have hA2c : (flag_strand saf d (tag_yd d cr (drop_ys aln))).cigar = aln.cigar := by
    rw [flag_strand_cigar, tag_yd_cigar, drop_ys_cigar]
  simp only [processRecord.eq_def, h1]
  rw [if_neg (fun hne => hne h2)]
  simp only [drop_ys_flag, drop_ys_chrom]
  rw [if_neg (fun hne => hne h3)]
  simp only [h4]
  rw [if_pos h5]
  rw [hch]
  simp only [flag_strand_chrom_mate, tag_yd_chrom_mate, drop_ys_chrom_mate, h7]
  refine ⟨_, rfl, ?_⟩
  exact restore_final o aln md mr _ (hg16.trans hA2f) hA2c

/-- C1 witness: an original sequence of length 50 and CIGAR `5H40M5H`; on
the plus strand the restored sequence is the slice at offsets 5 to 45 of
the original, on the minus strand the identically sliced reverse
complement. -/
theorem clip_restore_rule_check :
    (∃ b, processRecord none false (exClipBam 0) = Except.ok b ∧
      b.seq = (if (exClipBam 0).flag &&& 0x10 = 0 then
          (exO.take (exO.length - hAfter (cigs (exClipBam 0).cigar))).drop
            (hBefore (cigs (exClipBam 0).cigar))
        else
          ((comp exO.reverse).take (exO.length - hAfter (cigs (exClipBam 0).cigar))).drop
            (hBefore (cigs (exClipBam 0).cigar)))) ∧
    (∃ b, processRecord none false (exClipBam 16) = Except.ok b ∧
      b.seq = (if (exClipBam 16).flag &&& 0x10 = 0 then
          (exO.take (exO.length - hAfter (cigs (exClipBam 16).cigar))).drop
            (hBefore (cigs (exClipBam 16).cigar))
        else
          ((comp exO.reverse).take (exO.length - hAfter (cigs (exClipBam 16).cigar))).drop
            (hBefore (cigs (exClipBam 16).cigar)))) :=
  ⟨clip_restore_rule none false (exClipBam 0) exO (by decide) (by decide) (by decide)
      'f' (chars "chr1") (by decide) (Or.inl rfl) (by decide) '=' [] (by decide),
   clip_restore_rule none false (exClipBam 16) exO (by decide) (by decide) (by decide)
      'f' (chars "chr1") (by decide) (Or.inl rfl) (by decide) '=' [] (by decide)⟩

theorem runRecs_enumFrom (k : Nat) (quads : List Quad) :
    runRecs ((quads.map some).enumFrom k) = altConvert k quads := by
  induction quads generalizing k with
  | nil => rfl
  | cons qd rest ih =>
    obtain ⟨n, s, p, q⟩ := qd
    simp only [List.map_cons, List.enumFrom, runRecs, altConvert, ih]

/-- C5: when the base names of the first and fifth line of the first
source agree, the selected record stream is exactly the 4-line chunks of
that single source (independent of any second source), consumed
alternately as mate 0 and mate 1. -/
theorem interleave_detection (fq1 : List Line)
    (h5 : 5 ≤ fq1.length)
    (heq : firstField (fq1.headD []) = firstField ((fq1.take 5).getLastD [])) :
    ∀ fq2 : Option (List Line),
      selectedRecs fq1 fq2 = (chunk4 fq1).map some ∧
      processPair fq1 fq2 = altConvert 0 (chunk4 fq1) := by
  obtain ⟨a, t, rfl⟩ : ∃ a t, fq1 = a :: t := by
    cases fq1 with
    | nil => simp at h5
    | cons a t => exact ⟨a, t, rfl⟩
  intro fq2
  have hcond : firstField (((a :: t).take 5).headD []) =
      firstField (((a :: t).take 5).getLastD []) := heq
  have hsel : selectedRecs (a :: t) fq2 = (chunk4 (a :: t)).map some := by
    unfold selectedRecs
    rw [if_pos hcond]
  refine ⟨hsel, ?_⟩
  show runRecs (selectedRecs (a :: t) fq2).enum = altConvert 0 (chunk4 (a :: t))
  rw [hsel]
  rw [show ((chunk4 (a :: t)).map some).enum =
    ((chunk4 (a :: t)).map some).enumFrom 0 from rfl]
  exact runRecs_enumFrom 0 (chunk4 (a :: t))

/-- C5 witness: a concrete interleaved source of two records; the
processing is that of the single source, unchanged by a second one. -/
theorem interleave_detection_check :
    selectedRecs exInterFq (some [chars "@z\n"]) = (chunk4 exInterFq).map some ∧
    processPair exInterFq (some [chars "@z\n"]) = altConvert 0 (chunk4 exInterFq) :=
  interleave_detection exInterFq (by decide) (by decide) (some [chars "@z\n"])

theorem loopPairs_last (ps : List (List Line × Option (List Line)))
    (p : List Line × Option (List Line)) (lt : Option Nat)
    (os : List (List Char)) (c2 : Option Nat)
    (h : loopPairs (ps ++ [p]) lt = Except.ok (os, c2)) :
    ∃ o c, processPair p.1 p.2 = Except.ok (o, c) ∧ c2 = some c := by
  induction ps generalizing lt os c2 with
  | nil =>
    cases hp : processPair p.1 p.2 with
    | error e => simp [loopPairs, hp] at h
    | ok oc =>
      obtain ⟨o, c⟩ := oc
      refine ⟨o, c, rfl, ?_⟩
      simp [loopPairs, hp] at h
      exact h.2.symm
  | cons a ps' ih =>
    cases hp : processPair a.1 a.2 with
    | error e => simp [loopPairs, hp] at h
    | ok oc =>
      obtain ⟨o, c⟩ := oc
      simp only [List.cons_append, loopPairs, hp, List.append_eq] at h
      cases hrec : loopPairs (ps' ++ [p]) (some c) with
      | error e => rw [hrec] at h; simp at h
      | ok oc2 =>
        obtain ⟨os2, cc2⟩ := oc2
        rw [hrec] at h
        simp only [Except.ok.injEq, Prod.mk.injEq] at h
        obtain ⟨-, h2⟩ := h
        obtain ⟨o3, c3, hp3, hc3⟩ := ih (some c) os2 cc2 hrec
        exact ⟨o3, c3, hp3, h2 ▸ hc3⟩

/-- C9 (amended): the warning decision of `convert_reads` is computed from
the short-record count of the last source pair alone, the counter being
re-initialised for every pair. -/
theorem short_count_last_pair (ps : List (List Line × Option (List Line)))
    (p : List Line × Option (List Line)) (outs : List (List Char)) (w : Bool)
    (h : convert_reads (ps ++ [p]) = Except.ok (outs, w)) :
    ∃ o c, processPair p.1 p.2 = Except.ok (o, c) ∧ w = decide (c > 50) := by
  unfold convert_reads at h
  cases hl : loopPairs (ps ++ [p]) none with
  | error e => rw [hl] at h; simp at h
  | ok oc =>
    obtain ⟨os, c2⟩ := oc
    obtain ⟨o, c, hp, hc2⟩ := loopPairs_last ps p none os c2 hl
    subst hc2
    rw [hl] at h
    simp only [Except.ok.injEq, Prod.mk.injEq] at h
    exact ⟨o, c, hp, h.2.symm⟩

/-- C9 amended-claim witness: a single-pair run with one short record
yields a count of 1 for the last pair and no warning. -/
theorem short_count_last_pair_check :
    ∃ o c, processPair exW1 none = Except.ok (o, c) ∧ false = decide (c > 50) :=
  short_count_last_pair [] (exW1, none) [exW1Out] false (by decide)

/-- C9 counterexample: a run whose whole-run short-record count is 60
(so above the threshold of 50) emits no warning, because the counter was
reset by the second source pair; the warning is therefore not a function
of the whole-run count as claimed. -/
theorem short_count_not_whole_run :
    spec_whole_run_short_count exPairs = Except.ok 60 ∧
    (convert_reads exPairs).map (fun r => r.2) = Except.ok false ∧
    50 < 60 := by
  refine ⟨by decide, by decide, by norm_num⟩

theorem runWrites_error (ws : List (List Char)) (k : Nat) (fs : List (List Char))
    (hk : k < ws.length) : runWrites ws (some k) fs = Except.error () := by
  induction ws generalizing k fs with
  | nil => simp at hk
  | cons w rest ih =>
    cases k with
    | zero => rfl
    | succ j =>
      simp only [runWrites]
      exact ih j (fs ++ [w]) (by simpa using hk)

/-- C8: if any write of the genome recoding raises (after the output file
was created by the `open`), the handler deletes the partial output file
and the failure propagates, so no partial recoded-genome file remains. -/
theorem convert_fasta_cleanup (recs : List (List Char × List Char)) (k : Nat)
    (hk : k < (fastaWrites recs).length) :
    convert_fasta recs (some k) = (Except.error (), none) := by
  unfold convert_fasta
  rw [runWrites_error _ _ _ hk]

/-- C8 witness: a one-record reference whose second write fails leaves no
output file and propagates the error. -/
theorem convert_fasta_cleanup_check :
    convert_fasta [(chars "chr1", chars "ACGT")] (some 1) = (Except.error (), none) :=
  convert_fasta_cleanup [(chars "chr1", chars "ACGT")] 1 (by decide)
